import Mathlib

/-!
# Verification of the trend-comparison core of `github_trending_bot.py`

Shallow embedding of the pure computational core of the bot:

* `analyze_data`  — the aggregate analyzer (`analyze_data` in the source);
* `compare_trends` — the trend comparator (`compare_trends` in the source),
  with the quantities the source prints modelled as fields of a returned
  `TrendComparison` value, and the in-place mutation of the current repo
  records (the `repo['prev_stars'] = ...` assignment) modelled by the
  `current_after` field holding the post-call state of the current list;
* `find_comparison_file` — the closest-snapshot lookup, with the ambient
  wall clock (`datetime.now()`) passed explicitly as an integer number of
  seconds and the glob result passed as the list of candidate file paths.

Python `int` values are modelled as `ℤ`, Python `float` percentages as
exact rationals `ℚ` (the source guards every division by a zero test, so
all percentage values the source actually reports are finite and exact up
to the final 2-decimal rendering, which is presentation and not modelled).
Python dicts built by insertion with string keys are modelled as
association lists with last-write-wins lookup (`dget?`), matching CPython
semantics for duplicate keys.
-/

namespace GithubTrendingBot

/-- A repository record as consumed by the analyzer and the comparator.
`forks_count` is `none` when the source JSON omits the field
(`repo.get('forks_count', 0)`); `language` is `none` when the field is
JSON `null`; `prev_stars` is the field the comparator attaches in place
(`repo['prev_stars'] = ...`), absent (`none`) on records as captured. -/
structure Repo where
  full_name : String
  name : String
  stargazers_count : ℤ
  forks_count : Option ℤ
  language : Option String
  prev_stars : Option ℤ := none
deriving DecidableEq

/-- `repo['language'] or 'N/A'`: Python `or` replaces both `None` and the
empty string (both falsy) by the sentinel. -/
def normLang (lang : Option String) : String :=
  match lang with
  | none => "N/A"
  | some s => if s = "" then "N/A" else s

/-- Distinct elements of a list in first-occurrence order: the key order of
a CPython `dict` / `Counter` built by insertion. -/
def dedupFirst {α : Type} [DecidableEq α] : List α → List α
  | [] => []
  | a :: l => a :: (dedupFirst l).filter (fun b => decide (b ≠ a))

/-- `Counter(language_list)` as an association list: each distinct value in
first-occurrence order, paired with its number of occurrences. -/
def counterItems (xs : List String) : List (String × ℕ) :=
  (dedupFirst xs).map fun k => (k, xs.count k)

/-- `Counter.most_common()`: the items stably sorted by descending count
(CPython uses `sorted(..., reverse=True)`, which is stable; ties keep
first-insertion order). -/
def mostCommon (items : List (String × ℕ)) : List (String × ℕ) :=
  items.insertionSort fun x y => y.2 ≤ x.2

/-- The dictionary returned by `analyze_data`. -/
structure Analysis where
  repo_count : ℕ
  total_stars : ℤ
  total_forks : ℤ
  language_stats : List (String × ℕ)
deriving DecidableEq

/-- `analyze_data(repos)`: `None` on an empty list, otherwise the counts,
the star and fork totals (forks defaulting to 0 when the field is absent)
and the language histogram in `most_common()` order. -/
def analyze_data (repos : List Repo) : Option Analysis :=
  if repos = [] then none
  else
    let language_list := repos.map fun r => normLang r.language
    let language_stats := counterItems language_list
    let total_stars := (repos.map (fun r => r.stargazers_count)).sum
    let total_forks := (repos.map (fun r => r.forks_count.getD 0)).sum
    some { repo_count := repos.length
           total_stars := total_stars
           total_forks := total_forks
           language_stats := mostCommon language_stats }

/-! ## The trend comparator (`compare_trends`) -/

/-- `format_change(prev, curr, label)` inside `compare_trends`: the absolute
change and the reported percentage component.  The source prints `"N/A"`
when `prev == 0` (the conditional expression never evaluates the division
in that case); we model the reported percentage as `none` for the `"N/A"`
sentinel and `some` of the exact value otherwise. -/
def format_change (prev curr : ℤ) : ℤ × Option ℚ :=
  let change := curr - prev
  let pct : Option ℚ :=
    if prev ≠ 0 then some ((change : ℚ) / (prev : ℚ) * 100) else none
  (change, pct)

/-- `stats.get(lang, 0)` on the language-histogram dict.  The histogram's
keys are distinct, so the first match is the only match. -/
def statsGet (stats : List (String × ℕ)) (lang : String) : ℕ :=
  match stats.find? (fun p => decide (p.1 = lang)) with
  | some p => p.2
  | none => 0

/-- `sorted(set(prev.keys()) | set(curr.keys()))`: the distinct language
keys of both summaries, in lexicographic order. -/
def all_langs (pa ca : Analysis) : List String :=
  (dedupFirst ((pa.language_stats.map Prod.fst) ++ (ca.language_stats.map Prod.fst))).insertionSort
    fun a b => a ≤ b

/-- The language-heat loop of `compare_trends`: for each key of the union,
counts defaulting to 0 on a missing side, emit `(lang, change, pct)` when
the counts differ, in the `sorted(all_langs)` iteration order. -/
def lang_changes (pa ca : Analysis) : List (String × ℤ × Option ℚ) :=
  (all_langs pa ca).filterMap fun lang =>
    let prev_count : ℤ := (statsGet pa.language_stats lang : ℕ)
    let curr_count : ℤ := (statsGet ca.language_stats lang : ℕ)
    if prev_count ≠ curr_count then
      some (lang, curr_count - prev_count,
        if prev_count ≠ 0 then
          some (((curr_count - prev_count : ℤ) : ℚ) / (prev_count : ℚ) * 100)
        else none)
    else none

/-- A value of `prev_dict` / `curr_dict` in `compare_trends`. -/
structure DictEntry where
  rank : ℕ
  stars : ℤ
deriving DecidableEq

/-- Lookup in a Python dict built by successive insertions, modelled as the
insertion sequence itself: the last write for a key wins. -/
def dget? {α : Type} (d : List (String × α)) (k : String) : Option α :=
  d.foldl (fun acc p => if p.1 = k then some p.2 else acc) none

/-- `prev_dict` / `curr_dict`: `for i, repo in enumerate(repos, 1):
d[repo['full_name']] = dict(rank=i, stars=repo['stargazers_count'])`. -/
def rank_dict (repos : List Repo) : List (String × DictEntry) :=
  (repos.enumFrom 1).map fun p => (p.2.full_name, ⟨p.1, p.2.stargazers_count⟩)

/-- `[repo for repo in current_repos if repo['full_name'] not in prev_dict]`. -/
def new_projects (previous_repos current_repos : List Repo) : List Repo :=
  current_repos.filter fun r => (dget? (rank_dict previous_repos) r.full_name).isNone

/-- One element of the `rank_changes` list: the tuple
`(repo, prev_rank, curr_rank, change)` the source appends, where `repo` is
the (mutated) current record carrying `prev_stars`. -/
structure RankChange where
  repo : Repo
  prev_rank : ℕ
  curr_rank : ℕ
  change : ℤ
deriving DecidableEq

/-- The `rank_changes` accumulation loop of `compare_trends`, before
sorting: for each current record whose identifier is a key of `prev_dict`,
if the previous rank differs from `curr_dict[name]['rank']`, append the
tuple, with `prev_stars` written onto the record. -/
def rank_changes_raw (previous_repos current_repos : List Repo) : List RankChange :=
  let prev_dict := rank_dict previous_repos
  let curr_dict := rank_dict current_repos
  current_repos.filterMap fun r =>
    match dget? prev_dict r.full_name with
    | none => none
    | some pe =>
      let curr_rank := ((dget? curr_dict r.full_name).getD ⟨0, 0⟩).rank
      if pe.rank ≠ curr_rank then
        some { repo := { r with prev_stars := some pe.stars }
               prev_rank := pe.rank
               curr_rank := curr_rank
               change := (pe.rank : ℤ) - (curr_rank : ℤ) }
      else none

/-- `sorted(rank_changes, key=lambda x: abs(x[3]), reverse=True)`: the
emitted rank-change list, stably sorted by descending absolute rank delta
(Python's `sorted` is stable). -/
def rank_changes (previous_repos current_repos : List Repo) : List RankChange :=
  (rank_changes_raw previous_repos current_repos).insertionSort
    fun x y => |y.change| ≤ |x.change|

/-- The state of `current_repos` after `compare_trends` returns: the loop
assigns `repo['prev_stars'] = prev_dict[name]['stars']` on exactly the
records that produce a rank-change tuple; everything else is untouched. -/
def current_after (previous_repos current_repos : List Repo) : List Repo :=
  let prev_dict := rank_dict previous_repos
  let curr_dict := rank_dict current_repos
  current_repos.map fun r =>
    match dget? prev_dict r.full_name with
    | none => r
    | some pe =>
      let curr_rank := ((dget? curr_dict r.full_name).getD ⟨0, 0⟩).rank
      if pe.rank ≠ curr_rank then { r with prev_stars := some pe.stars } else r

/-- The per-entity star-velocity computation in the rank-change report:
`star_pct = star_change / prev_stars * 100` guarded by
`repo['prev_stars'] != 0`, reported as `"N/A"` (here `none`) on a zero
baseline. -/
def star_velocity (stargazers_count prev_stars : ℤ) : Option ℚ :=
  if prev_stars ≠ 0 then
    some (((stargazers_count - prev_stars : ℤ) : ℚ) / (prev_stars : ℚ) * 100)
  else none

/-- The structured comparison result: everything `compare_trends` reports,
plus the post-call state of the current repository list. -/
structure TrendComparison where
  stars_change : ℤ
  stars_pct : Option ℚ
  forks_change : ℤ
  forks_pct : Option ℚ
  lang_changes : List (String × ℤ × Option ℚ)
  new_projects : List Repo
  rank_changes : List RankChange
  current_after : List Repo

/-- `compare_trends(previous_analysis, current_analysis, previous_repos,
current_repos)` assembled from the pieces above. -/
def compare_trends (previous_analysis current_analysis : Analysis)
    (previous_repos current_repos : List Repo) : TrendComparison :=
  let sc := format_change previous_analysis.total_stars current_analysis.total_stars
  let fc := format_change previous_analysis.total_forks current_analysis.total_forks
  { stars_change := sc.1
    stars_pct := sc.2
    forks_change := fc.1
    forks_pct := fc.2
    lang_changes := lang_changes previous_analysis current_analysis
    new_projects := new_projects previous_repos current_repos
    rank_changes := rank_changes previous_repos current_repos
    current_after := current_after previous_repos current_repos }

/-! ## The snapshot store (`find_comparison_file`)

`find_comparison_file(days_ago, data_dir)` globs `data_dir/data_*.json`,
extracts the capture date from each file name with
`strptime(filename[5:-5], '%Y-%m-%d')`, and picks the candidate whose date
is closest (in `timedelta.days`, i.e. floored day difference) to
`datetime.now() - timedelta(days=days_ago)`, provided the minimum
difference is at most 2 days.  The wall clock and the glob result are I/O;
we pass them in: `now` is the current instant in seconds on the proleptic
Gregorian timeline used by `daysFromCivil` (sub-second precision is
irrelevant to every claim), `files` is the candidate path list. -/

/-- Split a character list on `'-'`, Python `str.split('-')` style
(`"a--b" ↦ ["a", "", "b"]`, `"" ↦ [""]`).  CPython's `_strptime` matches
the format `%Y-%m-%d` against the whole string, which amounts to this split
producing exactly three well-formed fields. -/
def splitDash : List Char → List (List Char)
  | [] => [[]]
  | c :: cs =>
    if c = '-' then [] :: splitDash cs
    else
      match splitDash cs with
      | [] => [[c]]
      | p :: ps => (c :: p) :: ps

/-- ASCII decimal digit test (`\d` of the `_strptime` regex on the file
names at hand). -/
def isDig (c : Char) : Bool := 48 ≤ c.toNat && c.toNat ≤ 57

/-- The numeric value of a non-empty all-digit field, `none` otherwise. -/
def digitsVal? (cs : List Char) : Option ℕ :=
  if cs ≠ [] ∧ cs.all isDig then
    some (cs.foldl (fun n c => n * 10 + (c.toNat - 48)) 0)
  else none

/-- Gregorian leap-year test, as in `datetime`. -/
def isLeapYear (y : ℕ) : Bool := decide ((y % 4 = 0 ∧ y % 100 ≠ 0) ∨ y % 400 = 0)

/-- Length of a month, used by `datetime(year, month, day)` validation. -/
def daysInMonth (y m : ℕ) : ℕ :=
  if m = 2 then (if isLeapYear y then 29 else 28)
  else if m = 4 ∨ m = 6 ∨ m = 9 ∨ m = 11 then 30
  else 31

/-- Day number of a valid civil date on the proleptic Gregorian calendar
(days since 0000-03-01); only differences of two such values matter. -/
def daysFromCivil (y m d : ℕ) : ℕ :=
  let y' := if m ≤ 2 then y - 1 else y
  let era := y' / 400
  let yoe := y' % 400
  let mp := (m + 9) % 12
  let doy := (153 * mp + 2) / 5 + d - 1
  let doe := yoe * 365 + yoe / 4 - yoe / 100 + doy
  era * 146097 + doe

/-- `datetime.strptime(os.path.basename(file_path)[5:-5], '%Y-%m-%d')`,
returning the capture date as a day number, or `none` on any parse or
validation failure (the `except ValueError: continue` path).  Per the
CPython `%Y-%m-%d` pattern: exactly four digits of year, one or two digits
of month in `1..12`, one or two digits of day in `1..`, the day bounded by
the month length, the whole field list exact, and `datetime` requiring
`1 ≤ year`. -/
def parse_snapshot_date (file_path : String) : Option ℕ :=
  let filename : List Char := (file_path.data.reverse.takeWhile (fun c => decide (c ≠ '/'))).reverse
  let date_str : List Char := (filename.drop 5).take (filename.length - 10)
  match splitDash date_str with
  | [ys, ms, ds] =>
    match digitsVal? ys, digitsVal? ms, digitsVal? ds with
    | some y, some m, some d =>
      if ys.length = 4 ∧ 1 ≤ y ∧
         ms.length ≤ 2 ∧ 1 ≤ m ∧ m ≤ 12 ∧
         ds.length ≤ 2 ∧ 1 ≤ d ∧ d ≤ daysInMonth y m then
        some (daysFromCivil y m d)
      else none
    | _, _, _ => none
  | _ => none

/-- `abs((target_date - file_date).days)`: `timedelta.days` floors, so the
difference in seconds is floor-divided by 86400 before taking the absolute
value. -/
def day_diff (target_date : ℤ) (file_day : ℕ) : ℤ :=
  |Int.fdiv (target_date - (file_day : ℤ) * 86400) 86400|

/-- `find_comparison_file`: fold over the candidates keeping the first
candidate attaining the running minimum day difference (`min_diff` starts
at `float('inf')`, modelled by `none`; the update test is strict `<`), skip
unparseable names, and return the winner only when the minimum difference
is at most 2 days. -/
def find_comparison_file (now days_ago : ℤ) (files : List String) : Option String :=
  let target_date : ℤ := now - days_ago * 86400
  if files = [] then none
  else
    let r := files.foldl
      (fun (acc : Option String × Option ℤ) file_path =>
        match parse_snapshot_date file_path with
        | none => acc
        | some fd =>
          let date_diff := day_diff target_date fd
          match acc.2 with
          | none => (some file_path, some date_diff)
          | some m => if date_diff < m then (some file_path, some date_diff) else acc)
      (none, none)
    match r with
    | (cf, some m) => if m ≤ 2 then cf else none
    | (_, none) => none

/-! ## Derived definitions used by the statements and proofs -/

/-- The rank-change accumulation as the spec words it: an entry for each
current-snapshot record (at 1-based position `p.1`) whose identifier exists
in the previous index and whose rank differs, with
`rank_delta = previous_rank - current_rank`.  Used to compare against
`rank_changes_raw`, whose current rank goes through `curr_dict`. -/
def rank_changes_from_spec (previous_repos current_repos : List Repo) : List RankChange :=
  (current_repos.enumFrom 1).filterMap fun p =>
    match dget? (rank_dict previous_repos) p.2.full_name with
    | none => none
    | some pe =>
      if pe.rank ≠ p.1 then
        some { repo := { p.2 with prev_stars := some pe.stars }
               prev_rank := pe.rank
               curr_rank := p.1
               change := (pe.rank : ℤ) - (p.1 : ℤ) }
      else none

/-- The parseable candidates of the closest-snapshot search, each paired
with its day difference from a target instant; unparseable names are
skipped. -/
def cand_list (target : ℤ) (files : List String) : List (String × ℤ) :=
  files.filterMap fun fp =>
    (parse_snapshot_date fp).map fun fd => (fp, day_diff target fd)

/-- The parseable candidates of `find_comparison_file now days_ago files`. -/
def candidates (now days_ago : ℤ) (files : List String) : List (String × ℤ) :=
  cand_list (now - days_ago * 86400) files

/-- Recursive formulation of the minimum search of `find_comparison_file`:
the first candidate attaining the minimum day difference, if any candidate
parses. -/
def best_choice (target : ℤ) : List String → Option (String × ℤ)
  | [] => none
  | fp :: rest =>
    match parse_snapshot_date fp with
    | none => best_choice target rest
    | some fd =>
      let diff := day_diff target fd
      match best_choice target rest with
      | none => some (fp, diff)
      | some (g, e) => if e < diff then some (g, e) else some (fp, diff)

/-- Erase the comparison-scoped `prev_stars` field of a record. -/
def stripPrevStars (r : Repo) : Repo := { r with prev_stars := none }

/-- A post-call current record is either the untouched input record, or the
input record with `prev_stars` set to its previous star count (for a record
matched in the previous index). -/
def mutationOk (previous_repos : List Repo) (p : Repo × Repo) : Bool :=
  decide (p.1 = p.2) ||
    (match dget? (rank_dict previous_repos) p.2.full_name with
     | some pe => decide (p.1 = { p.2 with prev_stars := some pe.stars })
     | none => false)

/-! ### Concrete sample data for the witnesses -/

/-- Sample record at previous rank 1. -/
def repoA : Repo :=
  { full_name := "octo/alpha", name := "alpha", stargazers_count := 100,
    forks_count := some 4, language := some "Python" }

/-- Sample record at previous rank 2, with no forks field and null language. -/
def repoB : Repo :=
  { full_name := "octo/beta", name := "beta", stargazers_count := 50,
    forks_count := none, language := none }

/-- Sample record absent from the previous snapshot. -/
def repoC : Repo :=
  { full_name := "octo/gamma", name := "gamma", stargazers_count := 60,
    forks_count := some 2, language := some "Rust" }

/-- Sample previous snapshot. -/
def prevSnap : List Repo := [repoA, repoB]

/-- Sample current snapshot: the two survivors swapped, plus a new entrant. -/
def currSnap : List Repo :=
  [{ repoB with stargazers_count := 80 }, { repoA with stargazers_count := 120 }, repoC]

/-- Summary of `prevSnap` (as `analyze_data` computes it). -/
def prevStats : Analysis :=
  { repo_count := 2, total_stars := 150, total_forks := 4,
    language_stats := [("Python", 1), ("N/A", 1)] }

/-- Summary of `currSnap` (as `analyze_data` computes it). -/
def currStats : Analysis :=
  { repo_count := 3, total_stars := 260, total_forks := 6,
    language_stats := [("N/A", 1), ("Python", 1), ("Rust", 1)] }

/-! ## Helper lemmas -/

theorem dget?_foldl {α : Type} (d : List (String × α)) (k : String) (acc : Option α) :
    d.foldl (fun a p => if p.1 = k then some p.2 else a) acc =
      match dget? d k with
      | some v => some v
      | none => acc := by
  induction d generalizing acc with
  | nil => simp [dget?]
  | cons p d ih =>
    show d.foldl _ (if p.1 = k then some p.2 else acc) = _
    rw [ih]
    have hcons : dget? (p :: d) k =
        match dget? d k with
        | some v => some v
        | none => if p.1 = k then some p.2 else none := by
      show d.foldl _ (if p.1 = k then some p.2 else none) = _
      rw [ih]
    rw [hcons]
    cases dget? d k with
    | some v => rfl
    | none => by_cases h : p.1 = k <;> simp [h]

theorem dget?_cons {α : Type} (p : String × α) (d : List (String × α)) (k : String) :
    dget? (p :: d) k =
      match dget? d k with
      | some v => some v
      | none => if p.1 = k then some p.2 else none := by
  show d.foldl _ (if p.1 = k then some p.2 else none) = _
  rw [dget?_foldl]

theorem dget?_eq_none_iff {α : Type} (d : List (String × α)) (k : String) :
    dget? d k = none ↔ ∀ p ∈ d, p.1 ≠ k := by
  induction d with
  | nil => simp [dget?]
  | cons p d ih =>
    rw [dget?_cons]
    constructor
    · intro h q hq
      have hd : dget? d k = none := by
        cases hd : dget? d k with
        | none => rfl
        | some v => rw [hd] at h; cases h
      rcases List.mem_cons.mp hq with rfl | hq'
      · intro hk
        rw [hd, if_pos hk] at h
        cases h
      · exact ih.mp hd q hq'
    · intro hall
      have hd : dget? d k = none := ih.mpr fun q hq => hall q (List.mem_cons_of_mem p hq)
      rw [hd, if_neg (hall p (List.mem_cons_self p d))]

theorem dget?_eq_some_of_mem_of_nodup {α : Type} {d : List (String × α)} {k : String} {v : α}
    (hnd : (d.map Prod.fst).Nodup) (hm : (k, v) ∈ d) : dget? d k = some v := by
  induction d with
  | nil => cases hm
  | cons p d ih =>
    rw [List.map_cons, List.nodup_cons] at hnd
    rw [dget?_cons]
    rcases List.mem_cons.mp hm with heq | hmem
    · have hp1 : p.1 = k := by rw [← heq]
      have hnone : dget? d k = none := by
        rw [dget?_eq_none_iff]
        intro q hq hqk
        apply hnd.1
        rw [hp1, ← hqk]
        exact List.mem_map_of_mem Prod.fst hq
      rw [hnone, ← heq]
      simp
    · rw [ih hnd.2 hmem]

theorem rank_dict_map_fst (repos : List Repo) :
    (rank_dict repos).map Prod.fst = repos.map fun r => r.full_name := by
  rw [rank_dict, List.map_map]
  rw [show (Prod.fst ∘ fun p : ℕ × Repo => (p.2.full_name, DictEntry.mk p.1 p.2.stargazers_count))
        = (fun r : Repo => r.full_name) ∘ Prod.snd from rfl]
  rw [← List.map_map, List.enumFrom_map_snd]

theorem dget?_rank_dict_isSome {repos : List Repo} {r : Repo} (hr : r ∈ repos) :
    (dget? (rank_dict repos) r.full_name).isSome := by
  cases h : dget? (rank_dict repos) r.full_name with
  | some v => rfl
  | none =>
    exfalso
    have hmem : r.full_name ∈ (rank_dict repos).map Prod.fst := by
      rw [rank_dict_map_fst]
      exact List.mem_map_of_mem _ hr
    rcases List.mem_map.mp hmem with ⟨p, hp, hpk⟩
    exact (dget?_eq_none_iff _ _).mp h p hp hpk

theorem dget?_rank_dict_eq_none_iff (repos : List Repo) (k : String) :
    dget? (rank_dict repos) k = none ↔ k ∉ repos.map fun r => r.full_name := by
  rw [dget?_eq_none_iff, ← rank_dict_map_fst]
  constructor
  · intro hall hk
    rcases List.mem_map.mp hk with ⟨p, hp, hpk⟩
    exact hall p hp hpk
  · intro hk p hp hpk
    exact hk (hpk ▸ List.mem_map_of_mem Prod.fst hp)

theorem mem_dedupFirst {α : Type} [DecidableEq α] {a : α} {l : List α} :
    a ∈ dedupFirst l ↔ a ∈ l := by
  induction l with
  | nil => simp [dedupFirst]
  | cons b l ih =>
    simp only [dedupFirst, List.mem_cons, List.mem_filter, decide_eq_true_iff, ih]
    by_cases h : a = b <;> simp [h]

theorem nodup_dedupFirst {α : Type} [DecidableEq α] (l : List α) : (dedupFirst l).Nodup := by
  induction l with
  | nil => simp [dedupFirst]
  | cons a l ih =>
    rw [dedupFirst, List.nodup_cons]
    refine ⟨fun h => ?_, ih.filter _⟩
    have := (List.mem_filter.mp h).2
    simp at this

theorem counterItems_map_fst (xs : List String) :
    (counterItems xs).map Prod.fst = dedupFirst xs := by
  rw [counterItems, List.map_map]
  exact List.map_id _

theorem snd_eq_count_of_mem_counterItems {xs : List String} {p : String × ℕ}
    (hp : p ∈ counterItems xs) : p.2 = xs.count p.1 := by
  rcases List.mem_map.mp hp with ⟨k, _, hk⟩
  rw [← hk]

theorem filter_orderedInsert {α β : Type} [DecidableEq β] (r : α → α → Prop) [DecidableRel r]
    (key : α → β) (hkey : ∀ x y, key x = key y → r x y) (v : β) (a : α) (l : List α) :
    (l.orderedInsert r a).filter (fun x => decide (key x = v)) =
      if key a = v then a :: l.filter (fun x => decide (key x = v))
      else l.filter fun x => decide (key x = v) := by
  induction l with
  | nil => by_cases h : key a = v <;> simp [List.orderedInsert, List.filter_cons, h]
  | cons b l ih =>
    rw [List.orderedInsert]
    by_cases hr : r a b
    · rw [if_pos hr]
      by_cases h : key a = v <;> simp [List.filter_cons, h]
    · rw [if_neg hr, List.filter_cons]
      by_cases h : key a = v
      · have hb : ¬ key b = v := fun hbv => hr (hkey a b (h.trans hbv.symm))
        rw [List.filter_cons]
        simp [h, hb, ih]
      · simp only [ih, if_neg h, List.filter_cons]

theorem filter_insertionSort {α β : Type} [DecidableEq β] (r : α → α → Prop) [DecidableRel r]
    (key : α → β) (hkey : ∀ x y, key x = key y → r x y) (v : β) (l : List α) :
    (l.insertionSort r).filter (fun x => decide (key x = v)) =
      l.filter fun x => decide (key x = v) := by
  induction l with
  | nil => rfl
  | cons a l ih =>
    rw [List.insertionSort, filter_orderedInsert r key hkey, ih, List.filter_cons]
    by_cases h : key a = v <;> simp [h]

theorem map_filterMap_sublist {α β γ : Type} (f : α → Option β) (g : β → γ) (e : α → γ)
    (hf : ∀ a b, f a = some b → g b = e a) (l : List α) :
    ((l.filterMap f).map g).Sublist (l.map e) := by
  induction l with
  | nil => simp
  | cons a l ih =>
    rw [List.filterMap_cons, List.map_cons]
    cases h : f a with
    | none => exact ih.cons (e a)
    | some b =>
      rw [List.map_cons, hf a b h]
      exact ih.cons₂ (e a)

theorem filterMap_congr' {α β : Type} {f g : α → Option β} (l : List α)
    (h : ∀ a ∈ l, f a = g a) : l.filterMap f = l.filterMap g := by
  induction l with
  | nil => rfl
  | cons a l ih =>
    rw [List.filterMap_cons, List.filterMap_cons, h a (List.mem_cons_self a l),
      ih fun b hb => h b (List.mem_cons_of_mem a hb)]
theorem cand_list_cons_none {fp : String} (target : ℤ) (rest : List String)
    (h : parse_snapshot_date fp = none) :
    cand_list target (fp :: rest) = cand_list target rest := by
  simp [cand_list, List.filterMap_cons, h]

theorem cand_list_cons_some {fp : String} {fd : ℕ} (target : ℤ) (rest : List String)
    (h : parse_snapshot_date fp = some fd) :
    cand_list target (fp :: rest) = (fp, day_diff target fd) :: cand_list target rest := by
  simp [cand_list, List.filterMap_cons, h]

theorem foldl_best_some (target : ℤ) (files : List String) :
    ∀ (cf : String) (m : ℤ),
      files.foldl
        (fun (acc : Option String × Option ℤ) file_path =>
          match parse_snapshot_date file_path with
          | none => acc
          | some fd =>
            let date_diff := day_diff target fd
            match acc.2 with
            | none => (some file_path, some date_diff)
            | some m => if date_diff < m then (some file_path, some date_diff) else acc)
        (some cf, some m) =
        match best_choice target files with
        | none => (some cf, some m)
        | some (g, e) => if e < m then (some g, some e) else (some cf, some m) := by
  induction files with
  | nil => intro cf m; rfl
  | cons fp rest ih =>
    intro cf m
    cases hp : parse_snapshot_date fp with
    | none =>
      simp only [List.foldl_cons, best_choice, hp]
      exact ih cf m
    | some fd =>
      simp only [List.foldl_cons, best_choice, hp]
      by_cases hlt : day_diff target fd < m
      · simp only [if_pos hlt, ih]
        cases hb : best_choice target rest with
        | none => simp [hlt]
        | some ge =>
          obtain ⟨g, e⟩ := ge
          by_cases he : e < day_diff target fd
          · simp [he, he.trans hlt]
          · simp [he, hlt]
      · simp only [if_neg hlt, ih]
        cases hb : best_choice target rest with
        | none => simp [hlt]
        | some ge =>
          obtain ⟨g, e⟩ := ge
          by_cases he : e < day_diff target fd
          · simp [he]
          · simp [he, hlt, show ¬ e < m by omega]

theorem foldl_best_none (target : ℤ) (files : List String) :
    files.foldl
      (fun (acc : Option String × Option ℤ) file_path =>
        match parse_snapshot_date file_path with
        | none => acc
        | some fd =>
          let date_diff := day_diff target fd
          match acc.2 with
          | none => (some file_path, some date_diff)
          | some m => if date_diff < m then (some file_path, some date_diff) else acc)
      (none, none) =
      match best_choice target files with
      | none => (none, none)
      | some (g, e) => (some g, some e) := by
  induction files with
  | nil => rfl
  | cons fp rest ih =>
    cases hp : parse_snapshot_date fp with
    | none =>
      simp only [List.foldl_cons, best_choice, hp]
      exact ih
    | some fd =>
      simp only [List.foldl_cons, best_choice, hp, foldl_best_some]
      cases hb : best_choice target rest with
      | none => simp
      | some ge =>
        obtain ⟨g, e⟩ := ge
        by_cases he : e < day_diff target fd
        · simp [he]
        · simp [he]

theorem find_eq_best (now days_ago : ℤ) (files : List String) :
    find_comparison_file now days_ago files =
      match best_choice (now - days_ago * 86400) files with
      | none => none
      | some (f, m) => if m ≤ 2 then some f else none := by
  by_cases hf : files = []
  · subst hf; rfl
  · simp only [find_comparison_file, if_neg hf, foldl_best_none]
    cases hb : best_choice (now - days_ago * 86400) files with
    | none => rfl
    | some ge => obtain ⟨g, e⟩ := ge; rfl

theorem best_choice_eq_none_iff (target : ℤ) (files : List String) :
    best_choice target files = none ↔ ∀ fp ∈ files, parse_snapshot_date fp = none := by
  induction files with
  | nil => simp [best_choice]
  | cons fp rest ih =>
    cases hp : parse_snapshot_date fp with
    | none =>
      simp only [best_choice, hp, ih]
      constructor
      · intro h q hq
        rcases List.mem_cons.mp hq with rfl | hq'
        · exact hp
        · exact h q hq'
      · intro h q hq
        exact h q (List.mem_cons_of_mem fp hq)
    | some fd =>
      simp only [best_choice, hp]
      constructor
      · intro h
        exfalso
        cases hb : best_choice target rest with
        | none => rw [hb] at h; cases h
        | some ge =>
          obtain ⟨g, e⟩ := ge
          rw [hb] at h
          dsimp only at h
          by_cases he : e < day_diff target fd
          · rw [if_pos he] at h; cases h
          · rw [if_neg he] at h; cases h
      · intro h
        have hfp := h fp (List.mem_cons_self fp rest)
        rw [hp] at hfp
        cases hfp

theorem cand_list_eq_nil_iff (target : ℤ) (files : List String) :
    cand_list target files = [] ↔ ∀ fp ∈ files, parse_snapshot_date fp = none := by
  rw [cand_list, List.filterMap_eq_nil_iff]
  constructor
  · intro h fp hfp
    have hx := h fp hfp
    cases hp : parse_snapshot_date fp with
    | none => rfl
    | some fd => rw [hp] at hx; cases hx
  · intro h fp hfp
    rw [h fp hfp]
    rfl

theorem best_choice_split (target : ℤ) :
    ∀ (files : List String) (g : String) (e : ℤ),
      best_choice target files = some (g, e) →
      ∃ pre post,
        cand_list target files = pre ++ (g, e) :: post ∧
        (∀ c ∈ pre, e < c.2) ∧ (∀ c ∈ post, e ≤ c.2) := by
  intro files
  induction files with
  | nil => intro g e h; cases h
  | cons fp rest ih =>
    intro g e h
    cases hp : parse_snapshot_date fp with
    | none =>
      simp only [best_choice, hp] at h
      obtain ⟨pre, post, hsplit, hpre, hpost⟩ := ih g e h
      exact ⟨pre, post, by rw [cand_list_cons_none target rest hp]; exact hsplit, hpre, hpost⟩
    | some fd =>
      simp only [best_choice, hp] at h
      rw [cand_list_cons_some target rest hp]
      cases hb : best_choice target rest with
      | none =>
        rw [hb] at h
        dsimp only at h
        simp only [Option.some.injEq, Prod.mk.injEq] at h
        obtain ⟨rfl, rfl⟩ := h
        have hnil : cand_list target rest = [] :=
          (cand_list_eq_nil_iff target rest).mpr ((best_choice_eq_none_iff target rest).mp hb)
        refine ⟨[], [], ?_, fun c hc => absurd hc (List.not_mem_nil c),
          fun c hc => absurd hc (List.not_mem_nil c)⟩
        rw [hnil]
        rfl
      | some ge =>
        obtain ⟨g', e'⟩ := ge
        rw [hb] at h
        dsimp only at h
        obtain ⟨pre', post', hsplit, hpre', hpost'⟩ := ih g' e' hb
        by_cases he : e' < day_diff target fd
        · rw [if_pos he] at h
          simp only [Option.some.injEq, Prod.mk.injEq] at h
          obtain ⟨rfl, rfl⟩ := h
          refine ⟨(fp, day_diff target fd) :: pre', post', ?_, ?_, hpost'⟩
          · rw [hsplit]
            rfl
          · intro c hc
            rcases List.mem_cons.mp hc with rfl | hc'
            · exact he
            · exact hpre' c hc'
        · rw [if_neg he] at h
          simp only [Option.some.injEq, Prod.mk.injEq] at h
          obtain ⟨rfl, rfl⟩ := h
          refine ⟨[], cand_list target rest, rfl,
            fun c hc => absurd hc (List.not_mem_nil c), ?_⟩
          intro c hc
          rw [hsplit] at hc
          rcases List.mem_append.mp hc with hc' | hc'
          · exact le_of_lt (lt_of_le_of_lt (not_lt.mp he) (hpre' c hc'))
          · rcases List.mem_cons.mp hc' with rfl | hc''
            · exact not_lt.mp he
            · exact (not_lt.mp he).trans (hpost' c hc'')

/-! ## The claims -/

/-- C1: every percentage-change computation in the trend comparison (star
totals, fork totals, per-entity star velocity in rank-change entries)
reports the "N/A" sentinel (`none`) on a zero baseline, with no division
performed, and otherwise reports exactly `delta / previous * 100`, signed
(exact in `ℚ`; the 2-decimal rendering is presentation).  A zero baseline
therefore never produces a division fault, overflow or NaN. -/
theorem percentage_zero_baseline (prev curr : ℤ) :
    (format_change prev curr).1 = curr - prev ∧
    (prev = 0 →
      (format_change prev curr).2 = none ∧ star_velocity curr prev = none) ∧
    (prev ≠ 0 →
      (format_change prev curr).2 = some (((curr - prev : ℤ) : ℚ) / ((prev : ℤ) : ℚ) * 100) ∧
      star_velocity curr prev = some (((curr - prev : ℤ) : ℚ) / ((prev : ℤ) : ℚ) * 100)) ∧
    (∀ (pa ca : Analysis) (pr cr : List Repo),
      (compare_trends pa ca pr cr).stars_pct =
        (format_change pa.total_stars ca.total_stars).2 ∧
      (compare_trends pa ca pr cr).forks_pct =
        (format_change pa.total_forks ca.total_forks).2) := by
  refine ⟨rfl, ?_, ?_, fun pa ca pr cr => ⟨rfl, rfl⟩⟩
  · intro h
    subst h
    exact ⟨by simp [format_change], by simp [star_velocity]⟩
  · intro h
    exact ⟨by simp [format_change, h], by simp [star_velocity, h]⟩

/-- Witness for C1 at the concrete baselines 0 and 2. -/
theorem percentage_zero_baseline_witness :
    ((0 : ℤ) = 0 ∧ ((format_change 0 50).2 = none ∧ star_velocity 50 0 = none)) ∧
    ((2 : ℤ) ≠ 0 ∧
      ((format_change 2 3).2 = some (((3 - 2 : ℤ) : ℚ) / (((2 : ℤ) : ℤ) : ℚ) * 100) ∧
        star_velocity 3 2 = some (((3 - 2 : ℤ) : ℚ) / (((2 : ℤ) : ℤ) : ℚ) * 100))) :=
  ⟨⟨rfl, (percentage_zero_baseline 0 50).2.1 rfl⟩,
   ⟨by decide, (percentage_zero_baseline 2 3).2.2.1 (by decide)⟩⟩

/-- C7: `analyze_data` returns the defined absent result exactly on the
empty snapshot; on any non-empty snapshot, the summary's `repo_count` is
the input length, `total_stars` the plain sum of star counts, and
`total_forks` the sum of fork counts with 0 substituted for each record
omitting the field. -/
theorem summarize_totals (repos : List Repo) :
    (analyze_data repos = none ↔ repos = []) ∧
    (∀ a, analyze_data repos = some a →
      a.repo_count = repos.length ∧
      a.total_stars = (repos.map fun r => r.stargazers_count).sum ∧
      a.total_forks = (repos.map fun r => r.forks_count.getD 0).sum) := by
  by_cases h : repos = []
  · subst h
    exact ⟨⟨fun _ => rfl, fun _ => rfl⟩, fun a ha => by cases ha⟩
  · constructor
    · rw [analyze_data, if_neg h]
      exact ⟨fun hx => (by cases hx), fun hx => absurd hx h⟩
    · intro a ha
      rw [analyze_data, if_neg h] at ha
      simp only [Option.some.injEq] at ha
      subst ha
      exact ⟨rfl, rfl, rfl⟩

/-- Witness for C7 on the concrete two-record sample snapshot. -/
theorem summarize_totals_witness :
    analyze_data prevSnap = some prevStats ∧
    (prevStats.repo_count = prevSnap.length ∧
      prevStats.total_stars = (prevSnap.map fun r => r.stargazers_count).sum ∧
      prevStats.total_forks = (prevSnap.map fun r => r.forks_count.getD 0).sum) :=
  ⟨by decide, (summarize_totals prevSnap).2 prevStats (by decide)⟩

/-- C5: comparing a snapshot (and its summary) against itself yields zero
star and fork deltas, an empty language-delta list, no new entrants and no
rank changes. -/
theorem self_comparison_trivial (a : Analysis) (repos : List Repo) :
    (compare_trends a a repos repos).stars_change = 0 ∧
    (compare_trends a a repos repos).forks_change = 0 ∧
    (compare_trends a a repos repos).lang_changes = [] ∧
    (compare_trends a a repos repos).new_projects = [] ∧
    (compare_trends a a repos repos).rank_changes = [] := by
  refine ⟨?_, ?_, ?_, ?_, ?_⟩
  · show (format_change a.total_stars a.total_stars).1 = 0
    simp [format_change]
  · show (format_change a.total_forks a.total_forks).1 = 0
    simp [format_change]
  · show lang_changes a a = []
    rw [lang_changes, List.filterMap_eq_nil_iff]
    intro lang _
    simp
  · show new_projects repos repos = []
    rw [new_projects, List.filter_eq_nil_iff]
    intro r hr
    have h := dget?_rank_dict_isSome hr
    cases hx : dget? (rank_dict repos) r.full_name with
    | none => rw [hx] at h; cases h
    | some v => simp [hx]
  · show rank_changes repos repos = []
    have hraw : rank_changes_raw repos repos = [] := by
      simp only [rank_changes_raw]
      rw [List.filterMap_eq_nil_iff]
      intro r hr
      cases hq : dget? (rank_dict repos) r.full_name with
      | none => rfl
      | some pe => simp [hq]
    rw [rank_changes, hraw]
    rfl

/-- C3: the new-entrant list is exactly the current snapshot filtered to
the records whose identifier is absent from the previous snapshot's
identifiers, it preserves current-snapshot order (it is a sublist of the
current snapshot), and its identifier set is disjoint from the previous
snapshot's identifier set. -/
theorem new_entrants_spec (previous_repos current_repos : List Repo) :
    new_projects previous_repos current_repos =
      current_repos.filter
        (fun r => decide (r.full_name ∉ previous_repos.map fun q => q.full_name)) ∧
    (new_projects previous_repos current_repos).Sublist current_repos ∧
    (∀ r ∈ new_projects previous_repos current_repos,
      r.full_name ∉ previous_repos.map fun q => q.full_name) := by
  have hfilter : new_projects previous_repos current_repos = current_repos.filter
      (fun r => decide (r.full_name ∉ previous_repos.map fun q => q.full_name)) := by
    rw [new_projects]
    apply List.filter_congr
    intro r _
    cases hx : dget? (rank_dict previous_repos) r.full_name with
    | none =>
      have hn := (dget?_rank_dict_eq_none_iff previous_repos r.full_name).mp hx
      simp [hn]
    | some v =>
      have hn : r.full_name ∈ previous_repos.map fun q => q.full_name := by
        by_contra hc
        rw [(dget?_rank_dict_eq_none_iff previous_repos r.full_name).mpr hc] at hx
        cases hx
      have hdec : decide (r.full_name ∉ previous_repos.map fun q => q.full_name) = false :=
        decide_eq_false (not_not_intro hn)
      simp [hx, hdec]
      exact List.mem_map.mp hn
  refine ⟨hfilter, ?_, ?_⟩
  · rw [hfilter]
    exact List.filter_sublist _
  · intro r hr
    rw [hfilter] at hr
    have hd := (List.mem_filter.mp hr).2
    simpa using hd

/-- Witness for C3: the sample new entrant is emitted and its identifier
does not occur in the previous snapshot. -/
theorem new_entrants_spec_witness :
    repoC ∈ new_projects prevSnap currSnap ∧
    repoC.full_name ∉ prevSnap.map fun q => q.full_name :=
  ⟨by decide, (new_entrants_spec prevSnap currSnap).2.2 repoC (by decide)⟩

/-- C8: in the summary's language histogram, every entry's count is the
occurrence count of the records whose normalized language equals the key
(grouping by normalized language, not star-weighted); a record with a null
language is normalized to the single "N/A" sentinel, which then occurs as
a histogram key; and the entries are ordered by descending count. -/
theorem histogram_sentinel_desc (repos : List Repo) (a : Analysis)
    (ha : analyze_data repos = some a) :
    (∀ p ∈ a.language_stats,
      p.2 = (repos.map fun r => normLang r.language).count p.1) ∧
    (∀ r ∈ repos, r.language = none →
      normLang r.language = "N/A" ∧ "N/A" ∈ a.language_stats.map Prod.fst) ∧
    (a.language_stats.map Prod.snd).Pairwise (fun x y => y ≤ x) := by
  have hrepos : repos ≠ [] := by
    intro h
    subst h
    cases ha
  rw [analyze_data, if_neg hrepos] at ha
  simp only [Option.some.injEq] at ha
  subst ha
  refine ⟨?_, ?_, ?_⟩
  · intro p hp
    exact snd_eq_count_of_mem_counterItems ((List.mem_insertionSort _).mp hp)
  · intro r hr hlang
    refine ⟨by rw [hlang]; rfl, ?_⟩
    have hperm :
        (mostCommon (counterItems (repos.map fun r => normLang r.language))).Perm
          (counterItems (repos.map fun r => normLang r.language)) :=
      List.perm_insertionSort _ _
    have hmem : "N/A" ∈ (counterItems (repos.map fun r => normLang r.language)).map Prod.fst := by
      rw [counterItems_map_fst, mem_dedupFirst]
      exact List.mem_map.mpr ⟨r, hr, by rw [hlang]; rfl⟩
    exact ((hperm.map Prod.fst).mem_iff).mpr hmem
  · haveI : IsTotal (String × ℕ) (fun x y => y.2 ≤ x.2) := ⟨fun a b => Nat.le_total b.2 a.2⟩
    haveI : IsTrans (String × ℕ) (fun x y => y.2 ≤ x.2) :=
      ⟨fun a b c hab hbc => le_trans hbc hab⟩
    rw [List.pairwise_map]
    exact List.sorted_insertionSort (fun x y : String × ℕ => y.2 ≤ x.2)
      (counterItems (repos.map fun r => normLang r.language))

/-- Witness for C8: the null-language record of the sample current snapshot
is normalized to the sentinel, which occurs among the histogram keys. -/
theorem histogram_sentinel_desc_witness :
    analyze_data currSnap = some currStats ∧
    (normLang (Repo.language { repoB with stargazers_count := 80 }) = "N/A" ∧
      "N/A" ∈ currStats.language_stats.map Prod.fst) :=
  ⟨by decide,
   (histogram_sentinel_desc currSnap currStats (by decide)).2.1
     { repoB with stargazers_count := 80 } (by decide) (by decide)⟩

theorem mem_all_langs {pa ca : Analysis} {lang : String} :
    lang ∈ all_langs pa ca ↔
      lang ∈ pa.language_stats.map Prod.fst ∨ lang ∈ ca.language_stats.map Prod.fst := by
  rw [all_langs, List.mem_insertionSort, mem_dedupFirst, List.mem_append]

/-- C4: the language-delta output ranges over the union of the language
keys of both summaries (a key missing on a side counting as 0 through the
dict lookup default), emits exactly the keys whose count delta is non-zero
with `delta = curr_count - prev_count`, and presents them in strictly
increasing lexicographic key order. -/
theorem lang_delta_spec (pa ca : Analysis) :
    (∀ lang d p, (lang, d, p) ∈ lang_changes pa ca →
      d = ((statsGet ca.language_stats lang : ℕ) : ℤ) -
            ((statsGet pa.language_stats lang : ℕ) : ℤ) ∧
      d ≠ 0 ∧
      (lang ∈ pa.language_stats.map Prod.fst ∨ lang ∈ ca.language_stats.map Prod.fst)) ∧
    (∀ lang,
      (lang ∈ pa.language_stats.map Prod.fst ∨ lang ∈ ca.language_stats.map Prod.fst) →
      statsGet ca.language_stats lang ≠ statsGet pa.language_stats lang →
      ∃ d p, (lang, d, p) ∈ lang_changes pa ca) ∧
    ((lang_changes pa ca).map fun e => e.1).Pairwise (fun x y => x < y) := by
  refine ⟨?_, ?_, ?_⟩
  · intro lang d p hmem
    rw [lang_changes] at hmem
    rcases List.mem_filterMap.mp hmem with ⟨a, ha, hfa⟩
    dsimp only at hfa
    by_cases hc : ((statsGet pa.language_stats a : ℕ) : ℤ) ≠ ((statsGet ca.language_stats a : ℕ) : ℤ)
    · rw [if_pos hc] at hfa
      simp only [Option.some.injEq, Prod.mk.injEq] at hfa
      obtain ⟨rfl, rfl, rfl⟩ := hfa
      exact ⟨rfl, sub_ne_zero.mpr (Ne.symm hc), mem_all_langs.mp ha⟩
    · rw [if_neg hc] at hfa
      cases hfa
  · intro lang hmem hne
    have hcond : ((statsGet pa.language_stats lang : ℕ) : ℤ) ≠
        ((statsGet ca.language_stats lang : ℕ) : ℤ) := by
      exact_mod_cast Ne.symm hne
    have hval : ∃ b : String × ℤ × Option ℚ,
        ((fun lang =>
          let prev_count : ℤ := (statsGet pa.language_stats lang : ℕ)
          let curr_count : ℤ := (statsGet ca.language_stats lang : ℕ)
          if prev_count ≠ curr_count then
            some (lang, curr_count - prev_count,
              if prev_count ≠ 0 then
                some (((curr_count - prev_count : ℤ) : ℚ) / (prev_count : ℚ) * 100)
              else none)
          else none) lang = some b) ∧ b.1 = lang := by
      dsimp only
      rw [if_pos hcond]
      exact ⟨_, rfl, rfl⟩
    obtain ⟨⟨b1, b2, b3⟩, hb, hb1⟩ := hval
    cases hb1
    exact ⟨b2, b3, by
      rw [lang_changes]
      exact List.mem_filterMap.mpr ⟨b1, mem_all_langs.mpr hmem, hb⟩⟩
  · have hnodup : (all_langs pa ca).Nodup :=
      ((List.perm_insertionSort _ _).nodup_iff).mpr (nodup_dedupFirst _)
    have hsorted : (all_langs pa ca).Sorted (· ≤ ·) := List.sorted_insertionSort _ _
    have hlt : (all_langs pa ca).Sorted (· < ·) := hsorted.lt_of_le hnodup
    have hsub : ((lang_changes pa ca).map fun e => e.1).Sublist ((all_langs pa ca).map id) := by
      rw [lang_changes]
      apply map_filterMap_sublist
      intro a b hfb
      dsimp only at hfb
      by_cases hc :
          ((statsGet pa.language_stats a : ℕ) : ℤ) ≠ ((statsGet ca.language_stats a : ℕ) : ℤ)
      · rw [if_pos hc] at hfb
        simp only [Option.some.injEq] at hfb
        rw [← hfb]
        rfl
      · rw [if_neg hc] at hfb
        cases hfb
    rw [List.map_id] at hsub
    exact List.Pairwise.sublist hsub hlt

/-- Witness for C4: in the sample summaries only `"Rust"` changes count,
and it is emitted. -/
theorem lang_delta_spec_witness :
    (("Rust" ∈ prevStats.language_stats.map Prod.fst ∨
        "Rust" ∈ currStats.language_stats.map Prod.fst) ∧
      statsGet currStats.language_stats "Rust" ≠ statsGet prevStats.language_stats "Rust") ∧
    ∃ d p, ("Rust", d, p) ∈ lang_changes prevStats currStats :=
  ⟨⟨by decide, by decide⟩,
   (lang_delta_spec prevStats currStats).2.1 "Rust" (by decide) (by decide)⟩

/-- C2: under the data-model invariant that identifiers are unique within
the current snapshot, the raw rank-change accumulation has an entry exactly
for the current records whose identifier is in the previous index and whose
1-based position differs from the previous rank (this is
`rank_changes_from_spec`, worded from the spec), with
`change = prev_rank - curr_rank`; the emitted list is sorted by descending
absolute rank delta, each emitted entry satisfies
`change = prev_rank - curr_rank`, and ties keep relative input order: for
every absolute delta, filtering the emitted list agrees with filtering the
accumulation order (stable sort). -/
theorem rank_change_spec (previous_repos current_repos : List Repo)
    (hnd : (current_repos.map fun r => r.full_name).Nodup) :
    rank_changes_raw previous_repos current_repos =
      rank_changes_from_spec previous_repos current_repos ∧
    (∀ e ∈ rank_changes previous_repos current_repos,
      e.change = (e.prev_rank : ℤ) - (e.curr_rank : ℤ)) ∧
    (rank_changes previous_repos current_repos).Pairwise
      (fun x y => |y.change| ≤ |x.change|) ∧
    (∀ k : ℤ,
      (rank_changes previous_repos current_repos).filter
          (fun e => decide (|e.change| = k)) =
        (rank_changes_raw previous_repos current_repos).filter
          fun e => decide (|e.change| = k)) := by
  refine ⟨?_, ?_, ?_, ?_⟩
  · simp only [rank_changes_raw, rank_changes_from_spec]
    generalize hD : rank_dict current_repos = D
    conv_lhs => rw [← List.enumFrom_map_snd 1 current_repos]
    rw [List.filterMap_map]
    apply filterMap_congr'
    intro p hp
    have hcurr : dget? D p.2.full_name = some ⟨p.1, p.2.stargazers_count⟩ := by
      rw [← hD]
      apply dget?_eq_some_of_mem_of_nodup
      · rw [rank_dict_map_fst]
        exact hnd
      · rw [rank_dict]
        exact List.mem_map.mpr ⟨p, hp, rfl⟩
    cases hq : dget? (rank_dict previous_repos) p.2.full_name with
    | none => simp [Function.comp, hq]
    | some pe => simp [Function.comp, hq, hcurr]
  · intro e he
    have he' : e ∈ rank_changes_raw previous_repos current_repos :=
      (List.mem_insertionSort _).mp he
    simp only [rank_changes_raw] at he'
    rcases List.mem_filterMap.mp he' with ⟨r, _, hfr⟩
    cases hq : dget? (rank_dict previous_repos) r.full_name with
    | none => rw [hq] at hfr; cases hfr
    | some pe =>
      rw [hq] at hfr
      dsimp only at hfr
      by_cases hne :
          pe.rank ≠ ((dget? (rank_dict current_repos) r.full_name).getD ⟨0, 0⟩).rank
      · rw [if_pos hne] at hfr
        simp only [Option.some.injEq] at hfr
        rw [← hfr]
      · rw [if_neg hne] at hfr
        cases hfr
  · haveI : IsTotal RankChange (fun x y => |y.change| ≤ |x.change|) :=
      ⟨fun a b => le_total _ _⟩
    haveI : IsTrans RankChange (fun x y => |y.change| ≤ |x.change|) :=
      ⟨fun a b c hab hbc => le_trans hbc hab⟩
    exact List.sorted_insertionSort _ _
  · intro k
    exact filter_insertionSort (fun x y : RankChange => |y.change| ≤ |x.change|)
      (fun e => |e.change|) (fun x y h => le_of_eq h.symm) k
      (rank_changes_raw previous_repos current_repos)

/-- Witness for C2 on the sample snapshots (two survivors swapped, tied
absolute deltas). -/
theorem rank_change_spec_witness :
    (currSnap.map fun r => r.full_name).Nodup ∧
    (rank_changes_raw prevSnap currSnap = rank_changes_from_spec prevSnap currSnap ∧
      (∀ e ∈ rank_changes prevSnap currSnap,
        e.change = (e.prev_rank : ℤ) - (e.curr_rank : ℤ)) ∧
      (rank_changes prevSnap currSnap).Pairwise (fun x y => |y.change| ≤ |x.change|) ∧
      (∀ k : ℤ,
        (rank_changes prevSnap currSnap).filter (fun e => decide (|e.change| = k)) =
          (rank_changes_raw prevSnap currSnap).filter fun e => decide (|e.change| = k))) :=
  ⟨by decide, rank_change_spec prevSnap currSnap (by decide)⟩

/-- Counterexample to C9: `compare_trends` mutates the records of its
current input collection.  On the sample snapshots the call writes
`prev_stars` onto the rank-changed current records, so the post-call state
of the current list differs from its pre-call state. -/
theorem comparator_mutates_current :
    (compare_trends prevStats currStats prevSnap currSnap).current_after ≠ currSnap := by
  decide

theorem all_mutationOk (previous_repos : List Repo) (f : Repo → Repo)
    (hf : ∀ r, f r = r ∨ ∃ pe, dget? (rank_dict previous_repos) r.full_name = some pe ∧
      f r = { r with prev_stars := some pe.stars }) :
    ∀ l : List Repo, ((l.map f).zip l).all (mutationOk previous_repos) = true := by
  intro l
  induction l with
  | nil => rfl
  | cons r l ih =>
    rw [List.map_cons, List.zip_cons_cons, List.all_cons, ih, Bool.and_true]
    rcases hf r with h | ⟨pe, hq, h⟩
    · rw [mutationOk]
      simp [h]
    · rw [mutationOk]
      dsimp only
      rw [hq]
      simp [h]

/-- C9 amended: the comparator leaves the previous snapshot and both
summaries untouched, but does mutate the current snapshot's records: each
post-call current record is the corresponding input record either unchanged
or with exactly its `prev_stars` field written to the previous star count
of its match in the previous index; stripped of `prev_stars`, the post-call
current list equals the pre-call one. -/
theorem comparator_mutation_scope (pa ca : Analysis)
    (previous_repos current_repos : List Repo) :
    ((compare_trends pa ca previous_repos current_repos).current_after.map stripPrevStars =
      current_repos.map stripPrevStars) ∧
    ((compare_trends pa ca previous_repos current_repos).current_after.zip
        current_repos).all (mutationOk previous_repos) = true := by
  constructor
  · show (current_after previous_repos current_repos).map stripPrevStars = _
    simp only [current_after]
    rw [List.map_map]
    apply List.map_congr_left
    intro r _
    cases hq : dget? (rank_dict previous_repos) r.full_name with
    | none => simp [Function.comp, hq]
    | some pe =>
      by_cases hne :
          pe.rank ≠ ((dget? (rank_dict current_repos) r.full_name).getD ⟨0, 0⟩).rank
      · simp [Function.comp, hq, hne, stripPrevStars]
      · simp [Function.comp, hq, hne]
  · show ((current_after previous_repos current_repos).zip current_repos).all _ = true
    simp only [current_after]
    apply all_mutationOk
    intro r
    cases hq : dget? (rank_dict previous_repos) r.full_name with
    | none =>
      left
      simp
    | some pe =>
      by_cases hne :
          pe.rank ≠ ((dget? (rank_dict current_repos) r.full_name).getD ⟨0, 0⟩).rank
      · right
        exact ⟨pe, rfl, by simp [hne]⟩
      · left
        simp [hne]

/-- C6: the closest-snapshot lookup skips unparseable names, computes the
(floored) absolute day difference of each parseable candidate from the
target date, and returns the absent value exactly when no parseable
candidate lies within the 2-day tolerance — a normal outcome, not a
failure; when it returns a file, that file is a parseable candidate within
tolerance whose day difference is minimal, every earlier-enumerated
candidate having a strictly greater difference (the first encountered wins
ties) and every later one a greater-or-equal difference. -/
theorem closest_snapshot_selection (now days_ago : ℤ) (files : List String) :
    (find_comparison_file now days_ago files = none ↔
      ∀ c ∈ candidates now days_ago files, 2 < c.2) ∧
    (∀ fp, find_comparison_file now days_ago files = some fp →
      ∃ fd diff pre post,
        parse_snapshot_date fp = some fd ∧
        diff = day_diff (now - days_ago * 86400) fd ∧
        diff ≤ 2 ∧
        candidates now days_ago files = pre ++ (fp, diff) :: post ∧
        (∀ c ∈ pre, diff < c.2) ∧
        (∀ c ∈ post, diff ≤ c.2)) := by
  rw [find_eq_best]
  constructor
  · cases hb : best_choice (now - days_ago * 86400) files with
    | none =>
      have hnil : candidates now days_ago files = [] := by
        rw [candidates]
        exact (cand_list_eq_nil_iff _ _).mpr ((best_choice_eq_none_iff _ _).mp hb)
      simp [hnil]
    | some ge =>
      obtain ⟨g, e⟩ := ge
      obtain ⟨pre, post, hsplit, hpre, hpost⟩ := best_choice_split _ files g e hb
      constructor
      · intro h c hc
        dsimp only at h
        have h2 : ¬ e ≤ 2 := by
          intro hle
          rw [if_pos hle] at h
          cases h
        rw [candidates, hsplit] at hc
        rcases List.mem_append.mp hc with hc' | hc'
        · exact lt_trans (not_le.mp h2) (hpre c hc')
        · rcases List.mem_cons.mp hc' with rfl | hc''
          · exact not_le.mp h2
          · exact lt_of_lt_of_le (not_le.mp h2) (hpost c hc'')
      · intro hall
        have hmem : (g, e) ∈ candidates now days_ago files := by
          rw [candidates, hsplit]
          exact List.mem_append.mpr (Or.inr (List.mem_cons_self _ _))
        dsimp only
        rw [if_neg (not_le.mpr (hall (g, e) hmem))]
  · intro fp hsome
    cases hb : best_choice (now - days_ago * 86400) files with
    | none => rw [hb] at hsome; cases hsome
    | some ge =>
      obtain ⟨g, e⟩ := ge
      rw [hb] at hsome
      dsimp only at hsome
      by_cases hle : e ≤ 2
      · rw [if_pos hle] at hsome
        simp only [Option.some.injEq] at hsome
        subst hsome
        obtain ⟨pre, post, hsplit, hpre, hpost⟩ := best_choice_split _ files g e hb
        have hmem : (g, e) ∈ cand_list (now - days_ago * 86400) files := by
          rw [hsplit]
          exact List.mem_append.mpr (Or.inr (List.mem_cons_self _ _))
        rcases List.mem_filterMap.mp hmem with ⟨a, _, hfa⟩
        cases hp : parse_snapshot_date a with
        | none => rw [hp] at hfa; cases hfa
        | some fd =>
          rw [hp] at hfa
          simp only [Option.map_some', Option.some.injEq, Prod.mk.injEq] at hfa
          obtain ⟨h1, h2⟩ := hfa
          subst h1
          refine ⟨fd, e, pre, post, hp, h2.symm, hle, ?_, hpre, hpost⟩
          rw [candidates]
          exact hsplit
      · rw [if_neg hle] at hsome
        cases hsome

/-- Witness for C6: a lookup over one unparseable and two dated candidates
returns the unique within-tolerance candidate. -/
theorem closest_snapshot_selection_witness :
    find_comparison_file ((daysFromCivil 2024 1 10 : ℤ) * 86400) 7
        ["data/data_oops.json", "data/data_2024-01-09.json", "data/data_2024-01-04.json"] =
      some "data/data_2024-01-04.json" ∧
    ∃ fd diff pre post,
      parse_snapshot_date "data/data_2024-01-04.json" = some fd ∧
      diff = day_diff ((daysFromCivil 2024 1 10 : ℤ) * 86400 - 7 * 86400) fd ∧
      diff ≤ 2 ∧
      candidates ((daysFromCivil 2024 1 10 : ℤ) * 86400) 7
          ["data/data_oops.json", "data/data_2024-01-09.json", "data/data_2024-01-04.json"] =
        pre ++ ("data/data_2024-01-04.json", diff) :: post ∧
      (∀ c ∈ pre, diff < c.2) ∧ (∀ c ∈ post, diff ≤ c.2) :=
  ⟨by decide,
   (closest_snapshot_selection ((daysFromCivil 2024 1 10 : ℤ) * 86400) 7
       ["data/data_oops.json", "data/data_2024-01-09.json", "data/data_2024-01-04.json"]).2
     "data/data_2024-01-04.json" (by decide)⟩

/-- C10: when the candidate list is non-empty but no file name yields a
parseable capture date, the lookup returns the absent value rather than
raising: the running minimum stays infinite and the tolerance check never
passes. -/
theorem unparseable_all_yields_none (now days_ago : ℤ) (files : List String)
    (hne : files ≠ [])
    (hall : ∀ fp ∈ files, parse_snapshot_date fp = none) :
    find_comparison_file now days_ago files = none := by
  rw [find_eq_best, (best_choice_eq_none_iff _ _).mpr hall]

/-- Witness for C10 on a pattern-matching but undated file name. -/
theorem unparseable_all_yields_none_witness :
    ((["data/data_latest.json"] : List String) ≠ [] ∧
      ∀ fp ∈ (["data/data_latest.json"] : List String), parse_snapshot_date fp = none) ∧
    find_comparison_file 0 7 ["data/data_latest.json"] = none :=
  ⟨⟨by decide, by decide⟩, unparseable_all_yields_none 0 7 _ (by decide) (by decide)⟩

end GithubTrendingBot
